import Mathlib

/-!
Shallow embedding of the CFG → Chomsky–Schützenberger converter
(`grammar.py`, `cs_representation.py`, `parse_tree.py`).

Python strings are modelled as Lean `String` (logically a list of `Char`);
Python dictionaries are modelled either as insertion-ordered association
lists (`grammar.productions`) or as partial maps `String → Option String`
(the homomorphism dictionary, whose iteration order no claim depends on).
Python exceptions are modelled with `Except`.  All recursion is structural
(an explicit `Nat` fuel stands in for recursion whose termination argument
is the number of remaining characters; the wrapper always supplies more
fuel than characters, so the fuel never runs out on any input).
-/

/-- Python `str.strip()` on a character list: drop whitespace on both ends. -/
def stripChars (l : List Char) : List Char :=
  ((l.dropWhile Char.isWhitespace).reverse.dropWhile Char.isWhitespace).reverse

/-- First occurrence split: Python `line.split(pat, 1)` giving the part before
the first occurrence of `pat` and the part after it (`none` if absent). -/
def splitFirstSub (pat : List Char) : List Char → Option (List Char × List Char)
  | [] => if pat = [] then some ([], []) else none
  | c :: rest =>
    if pat.isPrefixOf (c :: rest) then some ([], (c :: rest).drop pat.length)
    else (splitFirstSub pat rest).map (fun p => (c :: p.1, p.2))

/-- Python `text.splitlines()` restricted to the newline character. -/
def splitOnCharList (sep : Char) : List Char → List (List Char)
  | [] => [[]]
  | c :: rest =>
    let r := splitOnCharList sep rest
    if c = sep then [] :: r
    else
      match r with
      | [] => [[c]]
      | h :: t => (c :: h) :: t

/-- Python `seen`-set deduplication loop of `_tokenize_input_variants`:
keep an element only if it has not been seen before. -/
def dedupFirstAux {α : Type} [DecidableEq α] (seen : List α) : List α → List α
  | [] => []
  | a :: l => if a ∈ seen then dedupFirstAux seen l else a :: dedupFirstAux (seen ++ [a]) l

/-- Remove duplicates keeping the first occurrence. -/
def dedupFirst {α : Type} [DecidableEq α] (l : List α) : List α := dedupFirstAux [] l

/-- Lexicographic comparison of character lists by code point (the order
Python `sorted` uses on strings). -/
def charsLe : List Char → List Char → Bool
  | [], _ => true
  | _ :: _, [] => false
  | a :: as, b :: bs =>
    if a.toNat < b.toNat then true
    else if b.toNat < a.toNat then false
    else charsLe as bs

/-- Lexicographic order on strings by code point. -/
def strLe (a b : String) : Bool := charsLe a.data b.data

/-- Python `sorted` on strings (lexicographic). -/
def sortStr (l : List String) : List String :=
  l.insertionSort (fun a b => strLe a b = true)

/-- Python `sorted(…, key=len, reverse=True)`: stable sort, longest first. -/
def sortByLenDesc (l : List String) : List String :=
  l.insertionSort (fun a b => b.length ≤ a.length)

instance {ε α : Type} [DecidableEq ε] [DecidableEq α] : DecidableEq (Except ε α) :=
  fun a b =>
    match a, b with
    | .ok x, .ok y =>
      if h : x = y then isTrue (by rw [h]) else isFalse (by simp [h])
    | .error x, .error y =>
      if h : x = y then isTrue (by rw [h]) else isFalse (by simp [h])
    | .ok _, .error _ => isFalse (by simp)
    | .error _, .ok _ => isFalse (by simp)

/-- `GrammarError` of `grammar.py`: a message and an optional 1-based line. -/
structure GrammarErr where
  message : String
  line : Option Nat
deriving DecidableEq, Repr

/-- The `Grammar` class of `grammar.py`: the production dictionary
(insertion-ordered association list, one entry per nonterminal, each with
its list of alternative right-hand sides) and the start symbol. -/
structure Grammar where
  productions : List (String × List (List String))
  start_symbol : String
deriving DecidableEq, Repr

/-- `grammar.nonterminals`: the keys of the production dictionary. -/
def keysOf (g : Grammar) : List String := g.productions.map Prod.fst

/-- Every symbol occurring in any right-hand side of any production. -/
def rhsSymbols (g : Grammar) : List String :=
  g.productions.flatMap (fun p => p.2.flatMap (fun rhs => rhs))

/-- `Grammar._collect_terminals` followed by `sorted(...)`: the set of
right-hand-side symbols that are not nonterminals, as a sorted
duplicate-free list (the Python code keeps a `set` and sorts it at every
use site; only the underlying set and the sorted order are observable). -/
def terminalsList (g : Grammar) : List String :=
  sortStr (((rhsSymbols g).filter (fun s => s ∉ keysOf g)).dedup)

/-- `sorted(grammar.nonterminals)`. -/
def nonterminalsSorted (g : Grammar) : List String :=
  sortStr (keysOf g).dedup

/-- `normalize_nonterminal` of `grammar.py`: strip, then unwrap `<Name>`. -/
def normalizeNonterminal (token : String) : String :=
  let s := stripChars token.toList
  if 3 ≤ s.length ∧ s.head? = some '<' ∧ s.getLast? = some '>' then
    let inner := stripChars ((s.drop 1).dropLast)
    if inner ≠ [] then String.mk inner else String.mk s
  else String.mk s

/-- `split_rule_arrow`: split on the first `->`, else on the first `→`
(`line.split(arrow, 1)`). -/
def splitRuleArrow (line : List Char) : Option (List Char × List Char) :=
  match splitFirstSub ['-', '>'] line with
  | some p => some p
  | none => splitFirstSub ['→'] line

/-- One step of the `split_alternatives` scan of `grammar.py`: `current` is
the accumulated alternative, `inQuotes` the quote state, `prev` the
previous character (the scan toggles quoting on `"` only when the previous
character is not a backslash). `none` models the unterminated-quote error. -/
def splitAltsF : List Char → List Char → Bool → Option Char → Option (List String)
  | [], current, inQuotes, _ =>
    if inQuotes then none else some [String.mk (stripChars current)]
  | ch :: rest, current, inQuotes, prev =>
    if ch = '"' ∧ prev ≠ some '\\' then
      splitAltsF rest (current ++ [ch]) (!inQuotes) (some ch)
    else if ch = '|' ∧ inQuotes = false then
      (splitAltsF rest [] inQuotes (some ch)).map
        (fun ps => String.mk (stripChars current) :: ps)
    else splitAltsF rest (current ++ [ch]) inQuotes (some ch)

/-- `split_alternatives` of `grammar.py` (the line number is attached by the
caller). -/
def splitAlternatives (rhs : List Char) : Option (List String) :=
  splitAltsF rhs [] false none

def isIdentStartB (c : Char) : Bool := c.isAlpha || c = '_'

def isIdentCharB (c : Char) : Bool := c.isAlphanum || c = '_'

/-- `has_ident_boundary` on the suffix that follows the candidate match. -/
def identBoundaryB : List Char → Bool
  | [] => true
  | c :: _ => !(isIdentCharB c)

/-- The per-nonterminal test of `match_nonterminal_at`: prefix match, and
for multi-character identifier-like names also an identifier boundary. -/
def ntMatchOk (cs : List Char) (nt : String) : Bool :=
  nt.toList.isPrefixOf cs &&
    (if 1 < nt.toList.length ∧ isIdentStartB (nt.toList.headD ' ') then
      identBoundaryB (cs.drop nt.toList.length)
    else true)

/-- `match_nonterminal_at`: first hit over the longest-first list. -/
def matchNT (ntl : List String) (cs : List Char) : Option String :=
  ntl.find? (ntMatchOk cs)

/-- The quoted-literal scanner inside `tokenize_rhs_lex` (the `while` loop
after an opening `"`), fuel-indexed because the escape step consumes two
characters: returns the unescaped content and the characters after the
closing quote, or `none` when the quote is unterminated. -/
def scanQuotedF : Nat → List Char → Option (List Char × List Char)
  | 0, _ => none
  | _ + 1, [] => none
  | f + 1, c :: rest =>
    if c = '\\' then
      match rest with
      | c2 :: rest2 =>
        if c2 = '"' ∨ c2 = '\\' then
          (scanQuotedF f rest2).map (fun p => (c2 :: p.1, p.2))
        else (scanQuotedF f rest).map (fun p => (c :: p.1, p.2))
      | [] => none
    else if c = '"' then some ([], rest)
    else (scanQuotedF f rest).map (fun p => (c :: p.1, p.2))

/-- Fuel wrapper: the fuel always exceeds the character count, so it never
runs out. -/
def scanQuoted (l : List Char) : Option (List Char × List Char) :=
  scanQuotedF (l.length + 1) l

/-- `alt.find(">", i + 1)` split: content strictly between `<` and the next
`>`, and the characters after that `>`. -/
def splitAtGt : List Char → Option (List Char × List Char)
  | [] => none
  | c :: rest =>
    if c = '>' then some ([], rest)
    else (splitAtGt rest).map (fun p => (c :: p.1, p.2))

/-- The identifier extension loop of `tokenize_rhs_lex`: extend while the
character is an identifier character and no known nonterminal begins there. -/
def identScan (ntl : List String) : List Char → List Char × List Char
  | [] => ([], [])
  | c :: rest =>
    if isIdentCharB c && (matchNT ntl (c :: rest)).isNone then
      let p := identScan ntl rest
      (c :: p.1, p.2)
    else ([], c :: rest)

/-- The main scan loop of `tokenize_rhs_lex`, fuel-indexed (each step
consumes at least one character, so fuel exceeding the character count
never runs out; errors carry no line number, the caller attaches it).
The Python branch that distinguishes `ident in nonterminals` appends the
same token in both arms, so it is modelled as a single append. -/
def tokLexF (ntl : List String) : Nat → List Char → Except GrammarErr (List String)
  | 0, _ => .ok []
  | _ + 1, [] => .ok []
  | f + 1, c :: rest =>
    if c.isWhitespace then tokLexF ntl f rest
    else if c = '<' then
      match splitAtGt rest with
      | none => (tokLexF ntl f rest).map (fun ts => "<" :: ts)
      | some p =>
        (tokLexF ntl f p.2).map
          (fun ts => normalizeNonterminal (String.mk ('<' :: (p.1 ++ ['>']))) :: ts)
    else if c = '"' then
      match scanQuoted rest with
      | none => .error ⟨"Незакрытая кавычка в правой части правила.", none⟩
      | some p =>
        if p.1 = [] then
          .error ⟨"Пустой литерал в кавычках внутри RHS недопустим.", none⟩
        else (tokLexF ntl f p.2).map (fun ts => String.mk p.1 :: ts)
    else
      match matchNT ntl (c :: rest) with
      | some nt =>
        (tokLexF ntl f ((c :: rest).drop nt.toList.length)).map (fun ts => nt :: ts)
      | none =>
        if c.isDigit then (tokLexF ntl f rest).map (fun ts => String.mk [c] :: ts)
        else if isIdentStartB c then
          let p := identScan ntl rest
          (tokLexF ntl f p.2).map (fun ts => String.mk (c :: p.1) :: ts)
        else (tokLexF ntl f rest).map (fun ts => String.mk [c] :: ts)

/-- `tokenize_rhs_lex` of `grammar.py`: sort the known nonterminal names
longest first and scan. -/
def tokenizeRhsLex (alt : List Char) (nts : List String) : Except GrammarErr (List String) :=
  tokLexF (sortByLenDesc nts.dedup) (alt.length + 1) alt

/-- Does `s` contain `pat` as a substring (Python `pat in s`)? -/
def hasSub (pat : String) (s : String) : Bool :=
  (splitFirstSub pat.toList s.toList).isSome

/-- `tokenize_rhs` of `grammar.py`. -/
def tokenizeRhs (alt : String) (lineNo : Nat) (nts : List String) :
    Except GrammarErr (List String) := do
  let parts ← (tokenizeRhsLex alt.toList nts).mapError
    (fun e => ⟨e.message, some lineNo⟩)
  if parts = [] then .error ⟨"Пустая правая часть правила.", some lineNo⟩
  else if parts.any (fun p => hasSub "->" p || hasSub "→" p || hasSub "|" p) then
    .error ⟨"Некорректный символ в правиле.", some lineNo⟩
  else pure parts

/-- The per-alternative step of `parse_grammar`'s second pass: the epsilon
markers (`ε`, `epsilon`, `""`) and the empty alternative become the empty
symbol sequence, everything else is tokenized. -/
def altToRhs (nts : List String) (lineNo : Nat) (alt : String) :
    Except GrammarErr (List String) :=
  if alt = "ε" ∨ alt = "epsilon" ∨ alt = "\"\"" ∨ alt = "" then .ok []
  else tokenizeRhs alt lineNo nts

/-- State of `parse_grammar`'s line pass: collected raw rules
`(line, lhs, alternatives)`, the production-dictionary keys in insertion
order, the start symbol and the current LHS for continuation lines. -/
structure PassState where
  rules : List (Nat × String × List String)
  keys : List String
  start : Option String
  current : Option String
deriving Repr

/-- Processing of one (1-indexed) raw line in `parse_grammar`. -/
def procLine (st : PassState) (p : Nat × List Char) : Except GrammarErr PassState :=
  let idx := p.1
  let line := stripChars p.2
  if line = [] then .ok st
  else
    match splitRuleArrow line with
    | some q =>
      let lhs := normalizeNonterminal (String.mk (stripChars q.1))
      if lhs = "" then .error ⟨"Пустая левая часть правила.", some idx⟩
      else
        match splitAlternatives q.2 with
        | none => .error ⟨"Незакрытая кавычка в правой части правила.", some idx⟩
        | some alts =>
          if alts = [] then .error ⟨"Отсутствует правая часть правила.", some idx⟩
          else
            .ok { rules := st.rules ++ [(idx, lhs, alts)]
                  keys := if lhs ∈ st.keys then st.keys else st.keys ++ [lhs]
                  start := match st.start with | none => some lhs | s => s
                  current := some lhs }
    | none =>
      match line with
      | '|' :: restLine =>
        match st.current with
        | none => .error ⟨"Альтернатива '|' без предыдущего правила.", some idx⟩
        | some cl =>
          match splitAlternatives restLine with
          | none => .error ⟨"Незакрытая кавычка в правой части правила.", some idx⟩
          | some alts =>
            if alts = [] then .error ⟨"Отсутствует правая часть правила.", some idx⟩
            else .ok { st with rules := st.rules ++ [(idx, cl, alts)] }
      | _ => .error ⟨"Отсутствует '->' (или '→') в правиле.", some idx⟩

/-- Append one right-hand side to the entry of `k` (Python
`productions[lhs].append(symbols)`; the key is always present). -/
def dictAppend (m : List (String × List (List String))) (k : String)
    (v : List String) : List (String × List (List String)) :=
  m.map (fun q => if q.1 = k then (q.1, q.2 ++ [v]) else q)

/-- `parse_grammar` of `grammar.py`: the line pass collecting raw rules and
the LHS set, then the second pass tokenizing every alternative with the
full nonterminal set. -/
def parseGrammar (text : String) : Except GrammarErr Grammar :=
  if stripChars text.toList = [] then .error ⟨"Пустой ввод грамматики.", none⟩
  else do
    let lines := (splitOnCharList '\n' text.toList).enum.map (fun q => (q.1 + 1, q.2))
    let st ← lines.foldlM procLine ⟨[], [], none, none⟩
    match st.start with
    | none => .error ⟨"Не найден стартовый символ.", none⟩
    | some start => do
      let prods ← st.rules.foldlM
        (fun m r =>
          r.2.2.foldlM
            (fun m2 alt => do
              let rhs ← altToRhs st.keys r.1 alt
              pure (dictAppend m2 r.2.1 rhs))
            m)
        (st.keys.map (fun k => (k, ([] : List (List String)))))
      pure ⟨prods, start⟩

/-- `EPSILON_DISPLAY` of `cs_representation.py`: how the program displays
the empty string. -/
def epsilonDisplay : String := "ε"

/-- `BOTTOM_MARKER` of `cs_representation.py`. -/
def bottomMarker : String := "⊥"

/-- `_open`: the open bracket of a stack symbol. -/
def openB (sym : String) : String := "[" ++ sym

/-- `_close`: the close bracket of a stack symbol. -/
def closeB (sym : String) : String := "]" ++ sym

/-- The `add_all` helper of `_build_stack_alphabet`: append the items not
already present, keeping first occurrences. -/
def addAll (ordered : List String) (items : List String) : List String :=
  items.foldl (fun o x => if x ∈ o then o else o ++ [x]) ordered

/-- `_build_stack_alphabet`: nonterminals sorted, then terminals sorted,
then the bottom marker, duplicates suppressed. -/
def stackSymbols (g : Grammar) : List String :=
  addAll (addAll (addAll [] (nonterminalsSorted g)) (terminalsList g)) [bottomMarker]

/-- A Python dictionary entry assignment `h[k] = v`, with the dictionary
modelled as a partial map (later assignments win). -/
def updateMap (m : String → Option String) (k v : String) :
    String → Option String :=
  fun x => if x = k then some v else m x

/-- The per-terminal assignments of `build_homomorphism`:
`h[open(t)] = ε`, `h[close(t)] = t`. -/
def hTermStep (m : String → Option String) (t : String) : String → Option String :=
  updateMap (updateMap m (openB t) epsilonDisplay) (closeB t) t

/-- The per-nonterminal (and bottom-marker) assignments of
`build_homomorphism`: both brackets map to the epsilon display marker. -/
def hEpsStep (m : String → Option String) (a : String) : String → Option String :=
  updateMap (updateMap m (openB a) epsilonDisplay) (closeB a) epsilonDisplay

/-- `build_homomorphism` of `cs_representation.py`: terminals first, then
nonterminals, then the bottom marker (insertion order of the Python dict;
later assignments overwrite earlier ones). -/
def buildHomomorphism (g : Grammar) : String → Option String :=
  hEpsStep
    ((nonterminalsSorted g).foldl hEpsStep
      ((terminalsList g).foldl hTermStep (fun _ => none)))
    bottomMarker

/-- The `step_alts` list of `build_r_components`: one joined bracket string
per production (pop the LHS, push the RHS symbols in reverse), in the
insertion order of the production dictionary, followed by one close
bracket per terminal in sorted order. -/
def stepAlternatives (g : Grammar) : List String :=
  (g.productions.flatMap (fun p =>
    p.2.map (fun rhs =>
      String.intercalate " " (closeB p.1 :: (rhs.reverse.map openB)))))
  ++ (terminalsList g).map closeB

/-- The `step_regex` string of `build_r_components`. -/
def stepRegex (g : Grammar) : String :=
  if stepAlternatives g = [] then epsilonDisplay
  else String.intercalate " | "
    ((stepAlternatives g).map (fun a => "(" ++ a ++ ")"))

/-- The `r_regex` envelope string of `build_r_components`. -/
def rRegex (g : Grammar) : String :=
  openB bottomMarker ++ " " ++ openB g.start_symbol ++ " (STEP)* " ++ closeB bottomMarker

/-- The `CSRepresentation` dataclass (the homomorphism dictionary as a
partial map). -/
structure CSRepresentation where
  stack_symbols : List String
  gamma_pairs : List (String × String × String)
  r_regex : String
  step_regex : String
  homomorphism : String → Option String

/-- `build_cs_representation` of `cs_representation.py`. -/
def buildCSRepresentation (g : Grammar) : CSRepresentation :=
  { stack_symbols := stackSymbols g
    gamma_pairs := (stackSymbols g).map (fun s => (openB s, closeB s, s))
    r_regex := rRegex g
    step_regex := stepRegex g
    homomorphism := buildHomomorphism g }

/-- The text of one `expand` decoding line of `format_cs_output`
(`"  - expand: {lhs} -> {rhs_str}   ==>   {step}"`). -/
def expandLineOf (p : String × List String) : String :=
  "  - expand: " ++ p.1 ++ " -> " ++
    (if p.2 = [] then epsilonDisplay else String.intercalate " " p.2) ++
    "   ==>   " ++ String.intercalate " " (closeB p.1 :: (p.2.reverse.map openB))

/-- The text of one `match` decoding line of `format_cs_output`. -/
def matchLineOf (t : String) : String :=
  "  - match : " ++ t ++ "   ==>   " ++ closeB t

/-- The STEP-decoding block printed by `format_cs_output` in the R section
(`for lhs in sorted(grammar.productions.keys()): for rhs in
grammar.productions[lhs]: …` then `for t in sorted(grammar.terminals)`). -/
def decodeLinesR (g : Grammar) : List String :=
  ((sortStr (keysOf g).dedup).flatMap (fun lhs =>
    ((g.productions.lookup lhs).getD []).map (fun rhs => expandLineOf (lhs, rhs))))
  ++ (terminalsList g).map matchLineOf

/-- The production list in the declaration order of the production
dictionary: one `(lhs, rhs)` pair per production alternative. -/
def prodPairs (g : Grammar) : List (String × List String) :=
  g.productions.flatMap (fun p => p.2.map (fun rhs => (p.1, rhs)))

/-- `ParseNode` of `parse_tree.py`: a symbol with children, where a child
is either another node or a raw leaf string (the epsilon marker). -/
inductive ParseTree where
  | node (symbol : String) (children : List ParseTree)
  | leaf (text : String)
deriving Repr

/-- `ParseNode(symbol, node.children + [child_node])`: append a child. -/
def addChild : ParseTree → ParseTree → ParseTree
  | .node s cs, c => .node s (cs ++ [c])
  | .leaf s, _ => .leaf s

/-- `parse_symbol` of `parse_tree.py`, indexed by the step budget
(`steps_left`); the budget is decremented by one on every recursive call
and an exhausted budget yields no results.  The Python memo table caches a
function that is pure in `(symbol, position, steps_left)`, so it is
semantically transparent and omitted here. -/
def parseSymbol (g : Grammar) (tokens : List String) :
    Nat → String → Nat → List (ParseTree × Nat)
  | 0 => fun _ _ => []
  | f + 1 => fun sym pos =>
    if sym ∈ terminalsList g then
      if tokens.get? pos = some sym then [(.node sym [], pos + 1)] else []
    else if sym ∈ keysOf g then
      ((g.productions.lookup sym).getD []).flatMap (fun rhs =>
        if rhs = [] then [(.node sym [.leaf epsilonDisplay], pos)]
        else
          rhs.foldl
            (fun cur part =>
              cur.flatMap (fun np =>
                (parseSymbol g tokens f part np.2).map
                  (fun cr => (addChild np.1 cr.1, cr.2))))
            [((.node sym []), pos)])
    else []

/-- The step budget of `parse_string`: `max(80, len(tokens) * 20)`. -/
def stepBudget (tokens : List String) : Nat := max 80 (tokens.length * 20)

/-- The `dfs` of `_segment_text_with_terminals`, fuel-indexed (every tried
terminal is non-empty on all reachable inputs, so each recursion consumes
at least one character and fuel exceeding the character count never runs
out): all full segmentations of the text into grammar terminals, capped at
`max_variants = 256` results per position. -/
def segRecF (terms : List String) : Nat → List Char → List (List String)
  | 0, _ => []
  | _ + 1, [] => [[]]
  | f + 1, c :: rest =>
    (terms.flatMap (fun t =>
      if t.toList.isPrefixOf (c :: rest) then
        (segRecF terms f ((c :: rest).drop t.toList.length)).map
          (fun suf => t :: suf)
      else [])).take 256

/-- `_segment_text_with_terminals`: filter out empty terminals, sort the
rest longest first, and run the capped search. -/
def segmentTop (g : Grammar) (s : String) : List (List String) :=
  segRecF (sortByLenDesc ((terminalsList g).filter (fun t => t ≠ "")))
    (s.toList.length + 1) s.toList

/-- The word scanner behind Python `raw.split()`: the maximal run of
non-whitespace characters and the remainder. -/
def takeWord : List Char → List Char × List Char
  | [] => ([], [])
  | c :: rest =>
    if c.isWhitespace then ([], c :: rest)
    else
      let p := takeWord rest
      (c :: p.1, p.2)

/-- Python `[part for part in raw.split() if part]`, fuel-indexed (each
word step consumes at least one character). -/
def pyWordsF : Nat → List Char → List String
  | 0, _ => []
  | _ + 1, [] => []
  | f + 1, c :: rest =>
    if c.isWhitespace then pyWordsF f rest
    else
      let p := takeWord rest
      String.mk (c :: p.1) :: pyWordsF f p.2

def pyWords (l : List Char) : List String := pyWordsF (l.length + 1) l

/-- Python `"".join(spaced)`. -/
def pyJoin (l : List String) : String := l.foldl (fun a b => a ++ b) ""

/-- `_tokenize_input_variants` of `parse_tree.py` (Python locals `raw`,
`spaced` and `compact` are inlined). -/
def tokenizeVariants (text : String) (g : Grammar) : List (List String) :=
  if stripChars text.toList = [] then []
  else
    dedupFirst
      (if ' ' ∈ stripChars text.toList then
        (if pyWords (stripChars text.toList) ≠ []
            then [pyWords (stripChars text.toList)] else [])
          ++ segmentTop g (pyJoin (pyWords (stripChars text.toList)))
          ++ (if pyJoin (pyWords (stripChars text.toList)) ≠ "" then
                [(pyJoin (pyWords (stripChars text.toList))).toList.map
                    (fun c => String.mk [c]),
                  [pyJoin (pyWords (stripChars text.toList))]]
              else [])
      else
        segmentTop g (String.mk (stripChars text.toList))
          ++ [(stripChars text.toList).map (fun c => String.mk [c]),
              [String.mk (stripChars text.toList)]])

/-- The completion scan of `parse_string`: the first derivation result that
consumed the whole token list. -/
def firstComplete (results : List (ParseTree × Nat)) (len : Nat) : Option ParseTree :=
  (results.find? (fun r => r.2 == len)).map (fun r => r.1)

/-- The candidate loop of `parse_string`: try the token sequences in order
and return the first complete parse. -/
def firstParse (g : Grammar) : List (List String) → Option ParseTree
  | [] => none
  | tokens :: rest =>
    match firstComplete (parseSymbol g tokens (stepBudget tokens) g.start_symbol 0)
        tokens.length with
    | some n => some n
    | none => firstParse g rest

/-- `parse_string` of `parse_tree.py`. -/
def parseString (g : Grammar) (text : String) : Except String ParseTree :=
  if tokenizeVariants text g = [] then
    .error "Пустая входная строка для построения дерева разбора."
  else
    match firstParse g (tokenizeVariants text g) with
    | some n => .ok n
    | none => .error "Не удалось построить дерево разбора для входной строки."

/-- Modelled from the spec wording of the step filter (claim C1): one
alternative per production `A -> X1 … Xk` is the bracket sequence
`close(A) open(Xk) open(X(k-1)) … open(X1)` — written here by position,
`open` of the `(k-1-i)`-th symbol at index `i` — and just `close(A)` for
`k = 0`. -/
def specAltBrackets (lhs : String) (rhs : List String) : List String :=
  closeB lhs ::
    (List.range rhs.length).map (fun i => openB (rhs.getD (rhs.length - 1 - i) ""))

/-- Modelled from the spec wording of claim C7: the candidate token
sequences in the claimed order — whitespace-split sequence, then the
terminal segmentations of the compacted text, then the character split of
the compacted text, then the compacted text as one token, deduplicated
keeping first occurrences. -/
def claimCandidates (text : String) (g : Grammar) : List (List String) :=
  dedupFirst ([pyWords (stripChars text.toList)]
    ++ segmentTop g (pyJoin (pyWords (stripChars text.toList)))
    ++ [(pyJoin (pyWords (stripChars text.toList))).toList.map (fun c => String.mk [c])]
    ++ [[pyJoin (pyWords (stripChars text.toList))]])

/-- Modelled from the spec wording of claim C7: attempt the candidates in
order and return the first complete parse. -/
def claimFirstParse (g : Grammar) (cands : List (List String)) : Option ParseTree :=
  cands.findSome? (fun tokens =>
    firstComplete (parseSymbol g tokens (stepBudget tokens) g.start_symbol 0)
      tokens.length)

/-- Modelled from the spec wording of claim C6: the decoding lines in the
same order as the STEP alternatives — grammar production-declaration
order, then one match line per terminal in sorted order. -/
def claimDecodeLines (g : Grammar) : List String :=
  (prodPairs g).map expandLineOf ++ (terminalsList g).map matchLineOf

/-- Concrete grammar `S -> a S b | ε` (used to witness hypotheses). -/
def gEx : Grammar := ⟨[("S", [["a", "S", "b"], []])], "S"⟩

/-- Concrete grammar `S -> ⊥`, whose terminal set is the bottom marker. -/
def gBotEx : Grammar := ⟨[("S", [["⊥"]])], "S"⟩

/-- Concrete grammar with production keys out of sorted order. -/
def gZA : Grammar := ⟨[("Z", [["a"]]), ("A", [["b"]])], "Z"⟩

/-- Concrete grammar with sorted production keys. -/
def gAB2 : Grammar := ⟨[("A", [["a"]]), ("B", [["b"]])], "A"⟩

/-- Concrete grammar whose single terminal is `c`. -/
def gCc : Grammar := ⟨[("S", [["c"]])], "S"⟩

/-- Concrete grammar with a single epsilon production. -/
def gEpsOnly : Grammar := ⟨[("S", [[]])], "S"⟩

/-- Concrete grammar `S -> a`. -/
def gTermA : Grammar := ⟨[("S", [["a"]])], "S"⟩

theorem mem_sortStr {s : String} {l : List String} : s ∈ sortStr l ↔ s ∈ l :=
  (List.perm_insertionSort _ l).mem_iff

theorem charsLe_total : ∀ a b : List Char, charsLe a b = true ∨ charsLe b a = true
  | [], _ => Or.inl rfl
  | _ :: _, [] => Or.inr rfl
  | a :: as, b :: bs => by
    unfold charsLe
    rcases Nat.lt_trichotomy a.toNat b.toNat with h | h | h
    · simp [h]
    · have h1 : ¬ a.toNat < b.toNat := by omega
      have h2 : ¬ b.toNat < a.toNat := by omega
      simpa [h1, h2] using charsLe_total as bs
    · simp [h]

theorem charsLe_trans : ∀ a b c : List Char,
    charsLe a b = true → charsLe b c = true → charsLe a c = true
  | [], _, _, _, _ => rfl
  | _ :: _, [], _, h1, _ => by simp [charsLe] at h1
  | _ :: _, _ :: _, [], _, h2 => by simp [charsLe] at h2
  | a :: as, b :: bs, c :: cs, h1, h2 => by
    unfold charsLe at h1 h2 ⊢
    rcases Nat.lt_trichotomy a.toNat b.toNat with hab | hab | hab
    · rcases Nat.lt_trichotomy b.toNat c.toNat with hbc | hbc | hbc
      · have : a.toNat < c.toNat := by omega
        simp [this]
      · have : a.toNat < c.toNat := by omega
        simp [this]
      · have hn1 : ¬ b.toNat < c.toNat := by omega
        simp [hn1, hbc] at h2
    · have hn1 : ¬ a.toNat < b.toNat := by omega
      have hn2 : ¬ b.toNat < a.toNat := by omega
      simp [hn1, hn2] at h1
      rcases Nat.lt_trichotomy b.toNat c.toNat with hbc | hbc | hbc
      · have : a.toNat < c.toNat := by omega
        simp [this]
      · have hg1 : ¬ a.toNat < c.toNat := by omega
        have hg2 : ¬ c.toNat < a.toNat := by omega
        have hb1 : ¬ b.toNat < c.toNat := by omega
        have hb2 : ¬ c.toNat < b.toNat := by omega
        simp [hb1, hb2] at h2
        simpa [hg1, hg2] using charsLe_trans as bs cs h1 h2
      · have hb1 : ¬ b.toNat < c.toNat := by omega
        simp [hb1, hbc] at h2
    · have hn1 : ¬ a.toNat < b.toNat := by omega
      simp [hn1, hab] at h1

theorem sorted_sortStr (l : List String) :
    List.Sorted (fun a b => strLe a b = true) (sortStr l) :=
  @List.sorted_insertionSort String (fun a b => strLe a b = true) _
    ⟨fun a b => charsLe_total a.data b.data⟩
    ⟨fun a b c => charsLe_trans a.data b.data c.data⟩ l

theorem mem_terminalsList {g : Grammar} {s : String} :
    s ∈ terminalsList g ↔ s ∈ rhsSymbols g ∧ s ∉ keysOf g := by
  unfold terminalsList
  rw [mem_sortStr, List.mem_dedup, List.mem_filter]
  simp

theorem range_getD_reverse (l : List String) :
    (List.range l.length).map (fun i => l.getD (l.length - 1 - i) "") = l.reverse := by
  induction l with
  | nil => simp
  | cons a t ih =>
    rw [show (a :: t).length = t.length + 1 from rfl, List.range_succ, List.map_append]
    have h1 : (List.range t.length).map
        (fun i => (a :: t).getD (t.length + 1 - 1 - i) "")
        = (List.range t.length).map (fun i => t.getD (t.length - 1 - i) "") := by
      apply List.map_congr_left
      intro i hi
      rw [List.mem_range] at hi
      have h2 : t.length + 1 - 1 - i = (t.length - 1 - i) + 1 := by omega
      rw [h2]
      rfl
    rw [h1, ih]
    simp

theorem specAltBrackets_eq (lhs : String) (rhs : List String) :
    specAltBrackets lhs rhs = closeB lhs :: (rhs.reverse.map openB) := by
  unfold specAltBrackets
  congr 1
  rw [show (fun i => openB (rhs.getD (rhs.length - 1 - i) ""))
      = openB ∘ (fun i => rhs.getD (rhs.length - 1 - i) "") from rfl]
  rw [← List.map_map, range_getD_reverse]

theorem flatMap_pairs_map {α β γ : Type} (l : List (α × List β)) (F : α → β → γ) :
    (l.flatMap (fun p => p.2.map (fun b => (p.1, b)))).map (fun q => F q.1 q.2)
      = l.flatMap (fun p => p.2.map (F p.1)) := by
  induction l with
  | nil => rfl
  | cons p t ih =>
    simp only [List.flatMap_cons, List.map_append, List.map_map, ih]
    rfl

/-- C1: for every Grammar, the builder's STEP filter has exactly one
alternative per production, in the declaration order of the production
dictionary — the bracket sequence `close(A) open(Xk) … open(X1)` (just
`close(A)` for an epsilon production) — followed by one `close(t)`
alternative per terminal in lexicographically sorted order, and the
envelope is `open(⊥) open(start) (STEP)* close(⊥)`. -/
theorem c1_step_filter_and_envelope (g : Grammar) :
    stepAlternatives g
        = (prodPairs g).map (fun p => String.intercalate " " (specAltBrackets p.1 p.2))
          ++ (terminalsList g).map closeB
      ∧ List.Sorted (fun a b => strLe a b = true) (terminalsList g)
      ∧ (buildCSRepresentation g).r_regex
          = openB bottomMarker ++ " " ++ openB g.start_symbol
            ++ " (STEP)* " ++ closeB bottomMarker := by
  refine ⟨?_, sorted_sortStr _, rfl⟩
  unfold stepAlternatives prodPairs
  congr 1
  rw [show (fun p : String × List String =>
        String.intercalate " " (specAltBrackets p.1 p.2))
      = (fun p : String × List String =>
        String.intercalate " " (closeB p.1 :: (p.2.reverse.map openB))) from
    funext (fun p => by rw [specAltBrackets_eq])]
  rw [flatMap_pairs_map g.productions
    (fun a b => String.intercalate " " (closeB a :: (b.reverse.map openB)))]

theorem string_data_inj {x y : String} (h : x.data = y.data) : x = y :=
  String.ext h

theorem openB_inj {x y : String} (h : openB x = openB y) : x = y := by
  apply string_data_inj
  have h2 : (openB x).data = (openB y).data := by rw [h]
  simpa [openB, String.data] using h2

theorem closeB_inj {x y : String} (h : closeB x = closeB y) : x = y := by
  apply string_data_inj
  have h2 : (closeB x).data = (closeB y).data := by rw [h]
  simpa [closeB, String.data] using h2

theorem openB_ne_closeB (x y : String) : openB x ≠ closeB y := by
  intro h
  have h2 : (openB x).data = (closeB y).data := by rw [h]
  simp [openB, closeB, String.data] at h2

theorem updateMap_self (m : String → Option String) (k v : String) :
    updateMap m k v k = some v := by
  simp [updateMap]

theorem updateMap_other (m : String → Option String) (k v k' : String)
    (h : k' ≠ k) : updateMap m k v k' = m k' := by
  simp [updateMap, h]

theorem foldl_hTermStep_untouched (l : List String)
    (m : String → Option String) (k : String)
    (h : ∀ t ∈ l, openB t ≠ k ∧ closeB t ≠ k) :
    (l.foldl hTermStep m) k = m k := by
  induction l generalizing m with
  | nil => rfl
  | cons t rest ih =>
    rw [List.foldl_cons, ih (hTermStep m t)
      (fun x hx => h x (List.mem_cons_of_mem t hx))]
    have h1 := h t (List.mem_cons_self t rest)
    unfold hTermStep
    rw [updateMap_other _ _ _ _ (Ne.symm h1.2), updateMap_other _ _ _ _ (Ne.symm h1.1)]

theorem foldl_hEpsStep_untouched (l : List String)
    (m : String → Option String) (k : String)
    (h : ∀ t ∈ l, openB t ≠ k ∧ closeB t ≠ k) :
    (l.foldl hEpsStep m) k = m k := by
  induction l generalizing m with
  | nil => rfl
  | cons t rest ih =>
    rw [List.foldl_cons, ih (hEpsStep m t)
      (fun x hx => h x (List.mem_cons_of_mem t hx))]
    have h1 := h t (List.mem_cons_self t rest)
    unfold hEpsStep
    rw [updateMap_other _ _ _ _ (Ne.symm h1.2), updateMap_other _ _ _ _ (Ne.symm h1.1)]

theorem foldl_hTermStep_mem (l : List String) (t : String)
    (hl : l.Nodup) (ht : t ∈ l) (m : String → Option String) :
    (l.foldl hTermStep m) (closeB t) = some t
    ∧ (l.foldl hTermStep m) (openB t) = some epsilonDisplay := by
  induction l generalizing m with
  | nil => cases ht
  | cons x rest ih =>
    rw [List.foldl_cons]
    rcases List.mem_cons.mp ht with rfl | hmem
    · have hnot : t ∉ rest := (List.nodup_cons.mp hl).1
      have huntouched : ∀ k : String,
          (∀ y ∈ rest, openB y ≠ k ∧ closeB y ≠ k) →
          (rest.foldl hTermStep (hTermStep m t)) k = (hTermStep m t) k :=
        fun k hk => foldl_hTermStep_untouched rest (hTermStep m t) k hk
      constructor
      · rw [huntouched (closeB t) ?hne]
        · unfold hTermStep
          rw [updateMap_self]
        · intro y hy
          have hyt : y ≠ t := fun e => hnot (e ▸ hy)
          exact ⟨openB_ne_closeB y t, fun e => hyt (closeB_inj e)⟩
      · rw [huntouched (openB t) ?hne2]
        · unfold hTermStep
          rw [updateMap_other _ _ _ _ (openB_ne_closeB t t), updateMap_self]
        · intro y hy
          have hyt : y ≠ t := fun e => hnot (e ▸ hy)
          exact ⟨fun e => hyt (openB_inj e), Ne.symm (openB_ne_closeB t y)⟩
    · exact ih (List.nodup_cons.mp hl).2 hmem (hTermStep m x)

theorem foldl_hEpsStep_mem (l : List String) (a : String) (ha : a ∈ l)
    (m : String → Option String) :
    (l.foldl hEpsStep m) (openB a) = some epsilonDisplay
    ∧ (l.foldl hEpsStep m) (closeB a) = some epsilonDisplay := by
  induction l generalizing m with
  | nil => cases ha
  | cons x rest ih =>
    rw [List.foldl_cons]
    by_cases h : a ∈ rest
    · exact ih h (hEpsStep m x)
    · have hax : a = x := by
        rcases List.mem_cons.mp ha with e | e
        · exact e
        · exact absurd e h
      subst hax
      have huntouched : ∀ k : String,
          (∀ y ∈ rest, openB y ≠ k ∧ closeB y ≠ k) →
          (rest.foldl hEpsStep (hEpsStep m a)) k = (hEpsStep m a) k :=
        fun k hk => foldl_hEpsStep_untouched rest (hEpsStep m a) k hk
      constructor
      · rw [huntouched (openB a) ?h1]
        · unfold hEpsStep
          rw [updateMap_other _ _ _ _ (openB_ne_closeB a a), updateMap_self]
        · intro y hy
          have hya : y ≠ a := fun e => h (e ▸ hy)
          exact ⟨fun e => hya (openB_inj e), Ne.symm (openB_ne_closeB a y)⟩
      · rw [huntouched (closeB a) ?h2]
        · unfold hEpsStep
          rw [updateMap_self]
        · intro y hy
          have hya : y ≠ a := fun e => h (e ▸ hy)
          exact ⟨openB_ne_closeB y a, fun e => hya (closeB_inj e)⟩

theorem nodup_terminalsList (g : Grammar) : (terminalsList g).Nodup :=
  (List.perm_insertionSort _ _).nodup_iff.mpr (List.nodup_dedup _)

theorem mem_nonterminalsSorted {g : Grammar} {a : String} :
    a ∈ nonterminalsSorted g ↔ a ∈ keysOf g := by
  unfold nonterminalsSorted
  rw [mem_sortStr, List.mem_dedup]

theorem mem_addAll (items : List String) (o : List String) (x : String) :
    x ∈ addAll o items ↔ x ∈ o ∨ x ∈ items := by
  induction items generalizing o with
  | nil => simp [addAll]
  | cons i rest ih =>
    unfold addAll at ih ⊢
    rw [List.foldl_cons, ih]
    by_cases h : i ∈ o
    · simp only [if_pos h, List.mem_cons]
      constructor
      · rintro (hx | hx)
        · exact Or.inl hx
        · exact Or.inr (Or.inr hx)
      · rintro (hx | rfl | hx)
        · exact Or.inl hx
        · exact Or.inl h
        · exact Or.inr hx
    · simp [if_neg h, List.mem_append, or_assoc]

theorem mem_stackSymbols {g : Grammar} {x : String} :
    x ∈ stackSymbols g ↔ x ∈ keysOf g ∨ x ∈ terminalsList g ∨ x = bottomMarker := by
  unfold stackSymbols
  rw [mem_addAll, mem_addAll, mem_addAll]
  simp [mem_nonterminalsSorted, or_assoc]

theorem hTermStep_apply (m : String → Option String) (t k : String) :
    hTermStep m t k
      = if k = closeB t then some t
        else if k = openB t then some epsilonDisplay else m k := rfl

theorem hEpsStep_apply (m : String → Option String) (a k : String) :
    hEpsStep m a k
      = if k = closeB a then some epsilonDisplay
        else if k = openB a then some epsilonDisplay else m k := rfl

theorem buildHomomorphism_bottom (g : Grammar) :
    buildHomomorphism g (openB bottomMarker) = some epsilonDisplay
    ∧ buildHomomorphism g (closeB bottomMarker) = some epsilonDisplay := by
  unfold buildHomomorphism
  constructor
  · rw [hEpsStep_apply, if_neg (openB_ne_closeB bottomMarker bottomMarker), if_pos rfl]
  · rw [hEpsStep_apply, if_pos rfl]

theorem buildHomomorphism_nt (g : Grammar) (a : String) (ha : a ∈ keysOf g) :
    buildHomomorphism g (openB a) = some epsilonDisplay
    ∧ buildHomomorphism g (closeB a) = some epsilonDisplay := by
  by_cases hbot : a = bottomMarker
  · subst hbot
    exact buildHomomorphism_bottom g
  · have hmem : a ∈ nonterminalsSorted g := mem_nonterminalsSorted.mpr ha
    have hinner := foldl_hEpsStep_mem (nonterminalsSorted g) a hmem
      ((terminalsList g).foldl hTermStep (fun _ => none))
    unfold buildHomomorphism
    constructor
    · rw [hEpsStep_apply, if_neg (openB_ne_closeB a bottomMarker),
        if_neg (fun e => hbot (openB_inj e))]
      exact hinner.1
    · rw [hEpsStep_apply, if_neg (fun e => hbot (closeB_inj e)),
        if_neg (Ne.symm (openB_ne_closeB bottomMarker a))]
      exact hinner.2

theorem buildHomomorphism_term (g : Grammar) (t : String)
    (ht : t ∈ terminalsList g) (hb : bottomMarker ∉ terminalsList g) :
    buildHomomorphism g (closeB t) = some t
    ∧ buildHomomorphism g (openB t) = some epsilonDisplay := by
  have hbot : t ≠ bottomMarker := fun e => hb (e ▸ ht)
  have hkey : t ∉ keysOf g := (mem_terminalsList.mp ht).2
  have hterm := foldl_hTermStep_mem (terminalsList g) t (nodup_terminalsList g) ht
    (fun _ => none)
  have huntouchedClose : ((nonterminalsSorted g).foldl hEpsStep
      ((terminalsList g).foldl hTermStep (fun _ => none))) (closeB t)
      = ((terminalsList g).foldl hTermStep (fun _ => none)) (closeB t) := by
    apply foldl_hEpsStep_untouched
    intro y hy
    have hyt : y ≠ t := fun e => hkey (e ▸ mem_nonterminalsSorted.mp hy)
    exact ⟨openB_ne_closeB y t, fun e => hyt (closeB_inj e)⟩
  have huntouchedOpen : ((nonterminalsSorted g).foldl hEpsStep
      ((terminalsList g).foldl hTermStep (fun _ => none))) (openB t)
      = ((terminalsList g).foldl hTermStep (fun _ => none)) (openB t) := by
    apply foldl_hEpsStep_untouched
    intro y hy
    have hyt : y ≠ t := fun e => hkey (e ▸ mem_nonterminalsSorted.mp hy)
    exact ⟨fun e => hyt (openB_inj e), Ne.symm (openB_ne_closeB t y)⟩
  unfold buildHomomorphism
  constructor
  · rw [hEpsStep_apply, if_neg (fun e => hbot (closeB_inj e)),
      if_neg (Ne.symm (openB_ne_closeB bottomMarker t)), huntouchedClose]
    exact hterm.1
  · rw [hEpsStep_apply, if_neg (openB_ne_closeB t bottomMarker),
      if_neg (fun e => hbot (openB_inj e)), huntouchedOpen]
    exact hterm.2

/-- C2 (amended): for every Grammar whose terminal set does not contain the
bottom marker `⊥`, the homomorphism built by `build_cs_representation` is
total over both brackets of every stack symbol, maps the close bracket of
every terminal `t` to `t` itself, and maps every other bracket
(open-terminal, both nonterminal brackets, both bottom-marker brackets) to
the epsilon display marker `ε` — the program's encoding of the empty
string. -/
theorem c2_homomorphism_total_and_terminal_law (g : Grammar)
    (hb : bottomMarker ∉ terminalsList g) :
    (∀ s ∈ (buildCSRepresentation g).stack_symbols,
        (((buildCSRepresentation g).homomorphism (openB s)).isSome
          ∧ ((buildCSRepresentation g).homomorphism (closeB s)).isSome))
    ∧ (∀ t ∈ terminalsList g,
        (buildCSRepresentation g).homomorphism (closeB t) = some t
        ∧ (buildCSRepresentation g).homomorphism (openB t) = some epsilonDisplay)
    ∧ (∀ a ∈ keysOf g,
        (buildCSRepresentation g).homomorphism (openB a) = some epsilonDisplay
        ∧ (buildCSRepresentation g).homomorphism (closeB a) = some epsilonDisplay)
    ∧ (buildCSRepresentation g).homomorphism (openB bottomMarker) = some epsilonDisplay
    ∧ (buildCSRepresentation g).homomorphism (closeB bottomMarker) = some epsilonDisplay := by
  have hfield : (buildCSRepresentation g).homomorphism = buildHomomorphism g := rfl
  refine ⟨?_, ?_, ?_, ?_, ?_⟩
  · intro s hs
    rw [hfield]
    rw [show (buildCSRepresentation g).stack_symbols = stackSymbols g from rfl] at hs
    rcases mem_stackSymbols.mp hs with hk | hterm | hbot
    · have h := buildHomomorphism_nt g s hk
      exact ⟨by rw [h.1]; rfl, by rw [h.2]; rfl⟩
    · have h := buildHomomorphism_term g s hterm hb
      exact ⟨by rw [h.2]; rfl, by rw [h.1]; rfl⟩
    · subst hbot
      have h := buildHomomorphism_bottom g
      exact ⟨by rw [h.1]; rfl, by rw [h.2]; rfl⟩
  · intro t ht
    rw [hfield]
    exact buildHomomorphism_term g t ht hb
  · intro a ha
    rw [hfield]
    exact buildHomomorphism_nt g a ha
  · rw [hfield]
    exact (buildHomomorphism_bottom g).1
  · rw [hfield]
    exact (buildHomomorphism_bottom g).2

/-- C2 counterexample: for the grammar `S -> ⊥` the bottom marker is a
terminal, yet the homomorphism maps its close bracket to the epsilon
marker instead of to the terminal itself — the claimed terminal law fails
as stated for every Grammar. -/
theorem c2_counterexample :
    "⊥" ∈ terminalsList gBotEx
    ∧ (buildCSRepresentation gBotEx).homomorphism (closeB "⊥") = some "ε"
    ∧ (buildCSRepresentation gBotEx).homomorphism (closeB "⊥") ≠ some "⊥" := by
  refine ⟨by decide, by decide, by decide⟩

/-- Witness for C2: the hypothesis holds for `S -> a S b | ε` and the
terminal law follows for its terminal `a`. -/
theorem c2_witness :
    ("⊥" ∉ terminalsList gEx)
    ∧ ((buildCSRepresentation gEx).homomorphism (closeB "a") = some "a"
        ∧ (buildCSRepresentation gEx).homomorphism (openB "a") = some epsilonDisplay) :=
  ⟨by decide,
    (c2_homomorphism_total_and_terminal_law gEx (by decide)).2.1 "a" (by decide)⟩

/-- C3: the step budget is `max(80, tokens × 20)`, an exhausted budget
yields no results, and for every grammar and input `parse_string` is a
total function returning either a tree or an error — the embedding is
structurally recursive on the budget, which is the termination argument. -/
theorem c3_parse_terminates (g : Grammar) (text : String) (tokens : List String)
    (sym : String) (pos : Nat) :
    parseSymbol g tokens 0 sym pos = []
    ∧ 80 ≤ stepBudget tokens
    ∧ tokens.length * 20 ≤ stepBudget tokens
    ∧ ((∃ n, parseString g text = Except.ok n)
        ∨ (∃ e, parseString g text = Except.error e)) := by
  refine ⟨rfl, Nat.le_max_left _ _, Nat.le_max_right _ _, ?_⟩
  cases h : parseString g text with
  | ok n => exact Or.inl ⟨n, rfl⟩
  | error e => exact Or.inr ⟨e, rfl⟩

theorem parseSymbol_succ (g : Grammar) (tokens : List String) (f : Nat)
    (sym : String) (pos : Nat) :
    parseSymbol g tokens (f + 1) sym pos
      = if sym ∈ terminalsList g then
          (if tokens.get? pos = some sym then [(.node sym [], pos + 1)] else [])
        else if sym ∈ keysOf g then
          ((g.productions.lookup sym).getD []).flatMap (fun rhs =>
            if rhs = [] then [(.node sym [.leaf epsilonDisplay], pos)]
            else
              rhs.foldl
                (fun cur part =>
                  cur.flatMap (fun np =>
                    (parseSymbol g tokens f part np.2).map
                      (fun cr => (addChild np.1 cr.1, cr.2))))
                [((.node sym []), pos)])
        else [] := rfl

theorem parseFold_bound (g : Grammar) (tokens : List String) (f : Nat)
    (ih : ∀ sym pos, pos ≤ tokens.length →
      ∀ r ∈ parseSymbol g tokens f sym pos, pos ≤ r.2 ∧ r.2 ≤ tokens.length) :
    ∀ (syms : List String) (cur : List (ParseTree × Nat)) (base : Nat),
      (∀ c ∈ cur, base ≤ c.2 ∧ c.2 ≤ tokens.length) →
      ∀ r ∈ syms.foldl
          (fun cur part =>
            cur.flatMap (fun np =>
              (parseSymbol g tokens f part np.2).map
                (fun cr => (addChild np.1 cr.1, cr.2))))
          cur,
        base ≤ r.2 ∧ r.2 ≤ tokens.length := by
  intro syms
  induction syms with
  | nil =>
    intro cur base hcur r hr
    exact hcur r hr
  | cons part rest ihs =>
    intro cur base hcur r hr
    rw [List.foldl_cons] at hr
    refine ihs _ base ?_ r hr
    intro c hc
    rcases List.mem_flatMap.mp hc with ⟨np, hnp, hcm⟩
    rcases List.mem_map.mp hcm with ⟨cr, hcr, rfl⟩
    have h1 := hcur np hnp
    have h2 := ih part np.2 h1.2 cr hcr
    exact ⟨le_trans h1.1 h2.1, h2.2⟩

/-- C9 (amended): for every grammar, token sequence, budget, symbol and
in-range position `pos ≤ length`, every result of the derivation search
satisfies `pos ≤ nextPosition ≤ length` — the parse position never moves
backwards and never exceeds the end of the input. -/
theorem c9_positions_monotone (g : Grammar) (tokens : List String) (f : Nat)
    (sym : String) (pos : Nat) (hpos : pos ≤ tokens.length) :
    ∀ r ∈ parseSymbol g tokens f sym pos, pos ≤ r.2 ∧ r.2 ≤ tokens.length := by
  induction f generalizing sym pos with
  | zero =>
    intro r hr
    rw [show parseSymbol g tokens 0 sym pos = [] from rfl] at hr
    cases hr
  | succ f ih =>
    intro r hr
    rw [parseSymbol_succ] at hr
    by_cases hterm : sym ∈ terminalsList g
    · rw [if_pos hterm] at hr
      by_cases hm : tokens.get? pos = some sym
      · rw [if_pos hm] at hr
        rw [List.mem_singleton] at hr
        subst hr
        exact ⟨Nat.le_succ pos, (List.get?_eq_some.mp hm).1⟩
      · rw [if_neg hm] at hr
        cases hr
    · rw [if_neg hterm] at hr
      by_cases hnt : sym ∈ keysOf g
      · rw [if_pos hnt] at hr
        rcases List.mem_flatMap.mp hr with ⟨rhs, _, hrmem⟩
        by_cases hre : rhs = []
        · rw [if_pos hre] at hrmem
          rw [List.mem_singleton] at hrmem
          subst hrmem
          exact ⟨le_refl pos, hpos⟩
        · rw [if_neg hre] at hrmem
          refine parseFold_bound g tokens f (fun s p hp => ih s p hp) rhs
            [((ParseTree.node sym []), pos)] pos ?_ r hrmem
          intro c hc
          rw [List.mem_singleton] at hc
          subst hc
          exact ⟨le_refl pos, hpos⟩
      · rw [if_neg hnt] at hr
        cases hr

/-- C9 counterexample: called at the out-of-range position 5 on an empty
token list, the epsilon production of `S -> ε` yields the result position
5, which exceeds the input length — the claim fails for arbitrary
positions. -/
theorem c9_counterexample :
    (ParseTree.node "S" [ParseTree.leaf epsilonDisplay], 5)
        ∈ parseSymbol gEpsOnly ([] : List String) 1 "S" 5
    ∧ ¬ ((5 : Nat) ≤ ([] : List String).length) := by
  constructor
  · rw [show parseSymbol gEpsOnly ([] : List String) 1 "S" 5
        = [(ParseTree.node "S" [ParseTree.leaf epsilonDisplay], 5)] from rfl]
    exact List.mem_singleton_self _
  · decide

/-- Witness for C9: the in-range hypothesis holds for `S -> a` on the
token list `["a"]` at position 0, and the single derivation result ends at
position 1 within bounds. -/
theorem c9_witness :
    ((0 : Nat) ≤ ["a"].length) ∧ ((0 : Nat) ≤ 1 ∧ (1 : Nat) ≤ ["a"].length) :=
  ⟨by omega,
    c9_positions_monotone gTermA ["a"] 2 "S" 0 (by omega)
      (ParseTree.node "S" [ParseTree.node "a" []], 1)
      (by
        rw [show parseSymbol gTermA ["a"] 2 "S" 0
            = [(ParseTree.node "S" [ParseTree.node "a" []], 1)] from rfl]
        exact List.mem_singleton_self _)⟩

/-- C4 counterexample: `parse_grammar` accepts the rule line `A ->` with an
empty right-hand side, producing an epsilon production, instead of raising
an error. -/
theorem c4_counterexample :
    parseGrammar "A ->" = Except.ok ⟨[("A", [[]])], "A"⟩ := by decide

/-- C4 (amended): splitting an empty right-hand side yields the single
empty alternative (never the empty list, so the missing-right-hand-side
error is unreachable), the second pass turns an empty alternative into the
empty symbol sequence, and `parse_grammar` therefore accepts a rule line
whose right-hand side after the arrow is empty as an epsilon production. -/
theorem c4_empty_rhs_is_epsilon :
    (∀ (nts : List String) (lineNo : Nat), altToRhs nts lineNo "" = Except.ok [])
    ∧ splitAlternatives [] = some [""]
    ∧ parseGrammar "A ->" = Except.ok ⟨[("A", [[]])], "A"⟩ :=
  ⟨fun _ _ => rfl, rfl, by decide⟩

/-- C5: the claim is right and the code is wrong — on the grammar text
`S -> "a\\"` (a well-formed quoted literal whose content is `a` followed
by an escaped backslash) `parse_grammar` raises the unterminated-quote
error, because the quote tracking of `split_alternatives` only inspects
the single previous character and mistakes the closing quote for an
escaped one; the tokenizer itself unescapes the very same literal to the
terminal `a\` as the claim describes. -/
theorem c5_escaped_backslash_bug :
    parseGrammar "S -> \"a\\\\\""
        = Except.error ⟨"Незакрытая кавычка в правой части правила.", some 1⟩
    ∧ tokenizeRhsLex "\"a\\\\\"".toList ["S"] = Except.ok ["a\\"] :=
  ⟨by decide, by decide⟩

theorem splitAtGt_none (rest : List Char) (h : '>' ∉ rest) : splitAtGt rest = none := by
  induction rest with
  | nil => rfl
  | cons c cs ih =>
    unfold splitAtGt
    rw [if_neg (fun e => h (by rw [← e]; exact List.mem_cons_self c cs)),
      ih (fun hm => h (List.mem_cons_of_mem c hm))]
    rfl

/-- C10: when the lexer meets `<` and no `>` occurs in the rest of the
alternative, it emits `<` as its own single-character terminal token and
resumes at the next character without raising; end to end,
`parse_grammar` accepts `S -> <` with the terminal `<`. -/
theorem c10_lt_without_gt :
    (∀ (ntl : List String) (f : Nat) (rest : List Char), '>' ∉ rest →
        tokLexF ntl (f + 1) ('<' :: rest)
          = (tokLexF ntl f rest).map (fun ts => "<" :: ts))
    ∧ parseGrammar "S -> <" = Except.ok ⟨[("S", [["<"]])], "S"⟩ := by
  constructor
  · intro ntl f rest h
    have hdef : tokLexF ntl (f + 1) ('<' :: rest)
        = match splitAtGt rest with
          | none => (tokLexF ntl f rest).map (fun ts => "<" :: ts)
          | some p =>
            (tokLexF ntl f p.2).map
              (fun ts => normalizeNonterminal (String.mk ('<' :: (p.1 ++ ['>']))) :: ts) := rfl
    rw [hdef, splitAtGt_none rest h]
  · decide

/-- Witness for C10: the hypothesis holds for the tail `['a']` — the lexer
emits `<` and scans on. -/
theorem c10_witness :
    ('>' ∉ ['a'])
    ∧ tokLexF [] 2 ['<', 'a'] = (tokLexF [] 1 ['a']).map (fun ts => "<" :: ts) :=
  ⟨by decide, c10_lt_without_gt.1 [] 1 ['a'] (by decide)⟩

/-- C8: for every Grammar produced by `parse_grammar`, the terminal and
nonterminal sets are disjoint, and every right-hand-side symbol lies in
exactly one of the two (the terminal set is defined as the right-hand-side
symbols that are not nonterminals). -/
theorem c8_partition (text : String) (g : Grammar)
    (h : parseGrammar text = Except.ok g) :
    (∀ s, ¬ (s ∈ terminalsList g ∧ s ∈ keysOf g))
    ∧ (∀ s ∈ rhsSymbols g,
        (s ∈ terminalsList g ∧ s ∉ keysOf g)
        ∨ (s ∈ keysOf g ∧ s ∉ terminalsList g)) := by
  clear h
  constructor
  · intro s hs
    exact (mem_terminalsList.mp hs.1).2 hs.2
  · intro s hs
    by_cases hk : s ∈ keysOf g
    · exact Or.inr ⟨hk, fun ht => (mem_terminalsList.mp ht).2 hk⟩
    · exact Or.inl ⟨mem_terminalsList.mpr ⟨hs, hk⟩, hk⟩

/-- Witness for C8: `parse_grammar` builds `S -> a S b | ε`, and its
terminal `a` is not also a nonterminal. -/
theorem c8_witness :
    parseGrammar "S -> a S b | ε" = Except.ok gEx
    ∧ ¬ ("a" ∈ terminalsList gEx ∧ "a" ∈ keysOf gEx) :=
  ⟨by decide, (c8_partition "S -> a S b | ε" gEx (by decide)).1 "a"⟩

theorem flatMapCongr {α β : Type} {l : List α} {f h : α → List β}
    (hx : ∀ x ∈ l, f x = h x) : l.flatMap f = l.flatMap h := by
  induction l with
  | nil => rfl
  | cons a t ih =>
    rw [List.flatMap_cons, List.flatMap_cons, hx a (List.mem_cons_self a t),
      ih (fun x hm => hx x (List.mem_cons_of_mem a hm))]

theorem lookup_cons_ne {β : Type} {t : List (String × β)} {a : String} {b : β}
    {k : String} (h : a ≠ k) : ((a, b) :: t).lookup k = t.lookup k := by
  have hb : (k == a) = false := beq_eq_false_iff_ne.mpr (Ne.symm h)
  simp [List.lookup, hb]

theorem flatMap_lookup_eq (ps : List (String × List (List String)))
    (F : String → List String → String) (h : (ps.map Prod.fst).Nodup) :
    (ps.map Prod.fst).flatMap
        (fun lhs => ((ps.lookup lhs).getD []).map (F lhs))
      = ps.flatMap (fun p => p.2.map (F p.1)) := by
  induction ps with
  | nil => rfl
  | cons p t ih =>
    rcases p with ⟨a, b⟩
    have hnd := List.nodup_cons.mp h
    rw [List.map_cons, List.flatMap_cons, List.flatMap_cons]
    have hhead : (((a, b) :: t).lookup a).getD [] = b := by
      simp [List.lookup]
    rw [hhead]
    congr 1
    rw [flatMapCongr (f := fun lhs => ((((a, b) :: t).lookup lhs).getD []).map (F lhs))
      (h := fun lhs => ((t.lookup lhs).getD []).map (F lhs)) ?hcong]
    · exact ih hnd.2
    · intro x hxm
      have hax : a ≠ x := fun e => hnd.1 (e ▸ hxm)
      show ((((a, b) :: t).lookup x).getD []).map (F x)
          = ((t.lookup x).getD []).map (F x)
      rw [lookup_cons_ne hax]

/-- C6 counterexample: for the grammar with productions declared `Z` before
`A`, the decoding lines of the R section are printed for `A` first
(`sorted(productions.keys())`), while the STEP alternatives are built in
declaration order — the serializer is not order-preserving. -/
theorem c6_counterexample : decodeLinesR gZA ≠ claimDecodeLines gZA := by decide

/-- C6 (amended): the serializer iterates `sorted(productions.keys())`
while the builder iterates in declaration order, so the decoding lines are
not order-preserving in general; whenever the production keys are distinct
and already lexicographically sorted, the decoding lines do equal the
per-production lines in STEP order followed by the sorted terminal match
lines. -/
theorem c6_decode_lines (g : Grammar) (hnd : (keysOf g).Nodup)
    (hs : List.Sorted (fun a b => strLe a b = true) (keysOf g)) :
    decodeLinesR g = claimDecodeLines g := by
  unfold decodeLinesR claimDecodeLines
  congr 1
  rw [show sortStr (keysOf g).dedup
      = ((keysOf g).dedup).insertionSort (fun a b => strLe a b = true) from rfl]
  rw [List.dedup_eq_self.mpr hnd, List.Sorted.insertionSort_eq hs]
  have hmap : (prodPairs g).map expandLineOf
      = g.productions.flatMap (fun p => p.2.map (fun rhs => expandLineOf (p.1, rhs))) := by
    unfold prodPairs
    exact flatMap_pairs_map g.productions (fun a b => expandLineOf (a, b))
  rw [hmap]
  exact flatMap_lookup_eq g.productions (fun a b => expandLineOf (a, b)) hnd

/-- Witness for C6: the hypotheses hold for the grammar with the sorted
production keys `A`, `B`, and there the decode lines follow STEP order. -/
theorem c6_witness :
    ((keysOf gAB2).Nodup
      ∧ List.Sorted (fun a b => strLe a b = true) (keysOf gAB2))
    ∧ decodeLinesR gAB2 = claimDecodeLines gAB2 :=
  ⟨⟨by decide, by decide⟩, c6_decode_lines gAB2 (by decide) (by decide)⟩

theorem dropWhile_head_false {p : Char → Bool} :
    ∀ {l c rest}, List.dropWhile p l = c :: rest → p c = false
  | [], _, _, h => by cases h
  | a :: t, c, rest, h => by
    rw [List.dropWhile_cons] at h
    by_cases ha : p a = true
    · rw [if_pos ha] at h
      exact dropWhile_head_false h
    · rw [if_neg ha] at h
      injection h with h1 _
      rw [Bool.not_eq_true] at ha
      rw [← h1]
      exact ha

theorem stripChars_head_not_ws {l : List Char} {c : Char} {rest : List Char}
    (h : stripChars l = c :: rest) : c.isWhitespace = false := by
  unfold stripChars at h
  have hsuf : (l.dropWhile Char.isWhitespace).reverse.dropWhile Char.isWhitespace
      <:+ (l.dropWhile Char.isWhitespace).reverse :=
    List.dropWhile_suffix Char.isWhitespace
  have hpre : ((l.dropWhile Char.isWhitespace).reverse.dropWhile Char.isWhitespace).reverse
      <+: l.dropWhile Char.isWhitespace := by
    have := List.reverse_prefix.mpr hsuf
    rwa [List.reverse_reverse] at this
  rw [h] at hpre
  rcases hpre with ⟨t, ht⟩
  exact dropWhile_head_false (l := l) (by rw [← ht]; rfl)

theorem pyWords_ne_nil {c : Char} {rest : List Char}
    (h : c.isWhitespace = false) : pyWords (c :: rest) ≠ [] := by
  unfold pyWords
  show pyWordsF (rest.length + 1 + 1) (c :: rest) ≠ []
  unfold pyWordsF
  rw [if_neg (by simp [h])]
  exact List.cons_ne_nil _ _

theorem foldl_append_data (l : List String) (s : String) :
    (l.foldl (fun a b => a ++ b) s).data = s.data ++ l.flatMap String.data := by
  induction l generalizing s with
  | nil => simp
  | cons w t ih =>
    rw [List.foldl_cons, ih (s ++ w), List.flatMap_cons]
    show (s.data ++ w.data) ++ t.flatMap String.data
        = s.data ++ (w.data ++ t.flatMap String.data)
    rw [List.append_assoc]

theorem pyJoin_first_word_ne_empty {c : Char} {w : List Char} {ws' : List String} :
    pyJoin (String.mk (c :: w) :: ws') ≠ "" := by
  intro e
  have hd : (pyJoin (String.mk (c :: w) :: ws')).data = [] := by rw [e]
  rw [show pyJoin (String.mk (c :: w) :: ws')
      = (String.mk (c :: w) :: ws').foldl (fun a b => a ++ b) "" from rfl] at hd
  rw [foldl_append_data] at hd
  simp at hd

theorem dedupFirst_cons_ne_nil {α : Type} [DecidableEq α] (x : α) (l : List α) :
    dedupFirst (x :: l) ≠ [] := by
  unfold dedupFirst dedupFirstAux
  rw [if_neg (List.not_mem_nil x)]
  exact List.cons_ne_nil _ _

theorem firstParse_eq_findSome (g : Grammar) :
    ∀ cands, firstParse g cands = claimFirstParse g cands := by
  intro cands
  induction cands with
  | nil => rfl
  | cons tokens rest ih =>
    unfold firstParse claimFirstParse
    rw [List.findSome?_cons]
    cases firstComplete (parseSymbol g tokens (stepBudget tokens) g.start_symbol 0)
        tokens.length with
    | some n => rfl
    | none => exact ih

theorem pyWordsF_succ_cons (f : Nat) (c : Char) (rest : List Char)
    (h : c.isWhitespace = false) :
    pyWordsF (f + 1) (c :: rest)
      = String.mk (c :: (takeWord rest).1) :: pyWordsF f (takeWord rest).2 := by
  show (if c.isWhitespace = true then pyWordsF f rest
        else String.mk (c :: (takeWord rest).1) :: pyWordsF f (takeWord rest).2)
      = _
  rw [if_neg (by simp [h])]

/-- C7 (amended): for every input text whose whitespace-stripped form still
contains a space, `parse_string` generates exactly the claimed candidate
order — whitespace-split sequence, terminal segmentations of the compacted
text up to the cap, character split of the compacted text, the compacted
text as one token, deduplicated keeping first occurrences — and returns
the first complete parse over those candidates in order. -/
theorem c7_variant_order (g : Grammar) (text : String)
    (h : ' ' ∈ stripChars text.toList) :
    tokenizeVariants text g = claimCandidates text g
    ∧ parseString g text
        = match claimFirstParse g (claimCandidates text g) with
          | some n => Except.ok n
          | none =>
            Except.error "Не удалось построить дерево разбора для входной строки." := by
  rcases hr : stripChars text.toList with _ | ⟨c, rest⟩
  · rw [hr] at h
    cases h
  · have hcw : c.isWhitespace = false := stripChars_head_not_ws hr
    have hspeq : pyWords (c :: rest)
        = String.mk (c :: (takeWord rest).1)
            :: pyWordsF (rest.length + 1) (takeWord rest).2 :=
      pyWordsF_succ_cons (rest.length + 1) c rest hcw
    have hmem : ' ' ∈ (c :: rest) := by
      rw [hr] at h
      exact h
    have hsp : pyWords (c :: rest) ≠ [] := by
      rw [hspeq]
      exact List.cons_ne_nil _ _
    have hcomp : pyJoin (pyWords (c :: rest)) ≠ "" := by
      rw [hspeq]
      exact pyJoin_first_word_ne_empty
    have h1 : tokenizeVariants text g = claimCandidates text g := by
      unfold tokenizeVariants claimCandidates
      rw [hr]
      rw [if_neg (List.cons_ne_nil c rest), if_pos hmem, if_pos hsp, if_pos hcomp]
      congr 1
      rw [show ([(pyJoin (pyWords (c :: rest))).toList.map (fun ch => String.mk [ch]),
            [pyJoin (pyWords (c :: rest))]] : List (List String))
          = [(pyJoin (pyWords (c :: rest))).toList.map (fun ch => String.mk [ch])]
            ++ [[pyJoin (pyWords (c :: rest))]] from rfl]
      rw [← List.append_assoc]
    refine ⟨h1, ?_⟩
    have hne : claimCandidates text g ≠ [] := by
      unfold claimCandidates
      rw [hr, List.singleton_append]
      exact dedupFirst_cons_ne_nil _ _
    unfold parseString
    rw [h1, if_neg hne, firstParse_eq_findSome]

/-- C7 counterexample: the text `ab ` contains a space, but the code tests
the stripped text for spaces, takes the no-space branch, and generates the
character split before the whitespace-split sequence — not the claimed
order. -/
theorem c7_counterexample :
    (' ' ∈ "ab ".toList)
    ∧ tokenizeVariants "ab " gCc = [["a", "b"], ["ab"]]
    ∧ claimCandidates "ab " gCc = [["ab"], ["a", "b"]] :=
  ⟨by decide, by decide, by decide⟩

/-- Witness for C7: the hypothesis holds for the input `a b`, whose
stripped form contains a space. -/
theorem c7_witness :
    (' ' ∈ stripChars "a b".toList)
    ∧ (tokenizeVariants "a b" gEx = claimCandidates "a b" gEx
        ∧ parseString gEx "a b"
            = match claimFirstParse gEx (claimCandidates "a b" gEx) with
              | some n => Except.ok n
              | none =>
                Except.error "Не удалось построить дерево разбора для входной строки.") :=
  ⟨by decide, c7_variant_order gEx "a b" (by decide)⟩
